import Mathlib

/-
Verification of the schwarzwald point-cloud converter against its
natural-language specification.

The development shallowly embeds the relevant parts of the C++ sources:
pure functions become Lean functions over Nat / Int / Rat and lists,
filesystem state becomes an explicit record, and fallible code returns
Except.  Machine floating point is modelled by the rationals where only
the choice of formula (not rounding) is at stake.
-/

namespace Schwarzwald

/-! ## Terminal UI: progress glyphs (TerminalUI.cpp, get_progress_glyph) -/

/-- The nine-element glyph array of get_progress_glyph
(TerminalUI.cpp lines 66-68). -/
def glyphs : List String :=
  ["█", "▉", "▊", "▋", "▌", "▍", "▎", "▏", " "]

/-- C++ truncation of a real value to an int (static_cast toward zero). -/
def truncToInt (q : ℚ) : ℤ :=
  if q < 0 then ⌈q⌉ else ⌊q⌋

/-- The clamped glyph index computed by get_progress_glyph
(TerminalUI.cpp line 69): max(0, min(8, int((1 - progress) * 8))). -/
def progress_step (progress : ℚ) : ℤ :=
  max 0 (min 8 (truncToInt ((1 - progress) * 8)))

/-- get_progress_glyph (TerminalUI.cpp lines 63-71); the lookup
Glyphs[step] is rendered total via the clamped index. -/
def get_progress_glyph (progress : ℚ) : String :=
  glyphs.getD (progress_step progress).toNat " "

/-! ## Terminal UI: multiline label chunking (TerminalUI.cpp,
TerminalMultilineLabel::render) -/

/-- The chunk_string lambda of TerminalMultilineLabel::render
(TerminalUI.cpp lines 167-182): the number of chunks is the ceiling of
size / chunk_length, and chunk i spans offsets [i * len, min ((i+1) * len, size)). -/
def chunk_string (str : List Char) (chunk_length : ℕ) : List (List Char) :=
  (List.range ((str.length + chunk_length - 1) / chunk_length)).map
    (fun chunk => (str.take ((chunk + 1) * chunk_length)).drop (chunk * chunk_length))

/-! ## Coordinate transform selection (PotreeConverter.cpp,
get_transformation_helper) -/

/-- The WGS84 projection description compared against in
get_transformation_helper (PotreeConverter.cpp line 108). -/
def wgs84 : String := "+proj=longlat +datum=WGS84 +no_defs"

/-- The transform chosen for a run: either the identity or a
projection-based (Proj4) transform. -/
inductive Transform where
  | identity : Transform
  | proj4 : String → Transform
deriving DecidableEq

/-- get_transformation_helper (PotreeConverter.cpp lines 98-123).  The
Proj4Transform constructor lives in an external library; its success on a
given description is abstracted by the predicate proj4Ok.  A failing
construction is caught, a warning is printed, and the identity transform is
returned. -/
def get_transformation_helper (proj4Ok : String → Bool)
    (sourceProjection : Option String) : Transform :=
  match sourceProjection with
  | none => .identity
  | some s =>
    if s = wgs84 then .identity
    else if proj4Ok s then .proj4 s
    else .identity

/-! ## Output directory verification (PotreeConverter.cpp, verifyWorkDir) -/

/-- The state of the output directory: whether it exists and the names of its
entries (the pre-existing r.json, node files, and so on). -/
structure OutputDir where
  dirExists : Bool
  entries : List String
deriving DecidableEq

/-- The manifest file whose presence signals a populated output directory. -/
def rjson : String := "r.json"

/-- The store option of the converter (ABORT_IF_EXISTS is the default). -/
inductive StoreOption where
  | ABORT_IF_EXISTS
  | OVERWRITE
  | INCREMENTAL
deriving DecidableEq

/-- The error message thrown by verifyWorkDir (PotreeConverter.cpp
lines 132-134). -/
def outputExistsMsg : String :=
  "Output directory is not empty. Specify --overwrite if you want to overwrite the contents of the output folder!"

/-- verifyWorkDir (PotreeConverter.cpp lines 128-151).  If the directory
exists and holds r.json under ABORT_IF_EXISTS the run aborts; INCREMENTAL
keeps the directory as is; otherwise every entry of the directory is removed
(the removal loop over directory_iterator); a missing directory is created
empty. -/
def verifyWorkDir (d : OutputDir) (storeOption : StoreOption) :
    Except String OutputDir :=
  if d.dirExists then
    if rjson ∈ d.entries ∧ storeOption = .ABORT_IF_EXISTS then
      .error outputExistsMsg
    else if storeOption = .INCREMENTAL then
      .ok d
    else
      .ok ⟨true, []⟩
  else
    .ok ⟨true, []⟩

/-! ## Point reader construction for .pts files (PotreeConverter.cpp,
PotreeConverter::createPointReader) -/

/-- The intensity range handed to the XYZPointReader for a .pts source,
translated from PotreeConverter.cpp lines 164-172: the branch declares a
fresh local vector (shadowing the configured member), pushes the default
range [-2048, 2047] into the local only when the member is empty, and passes
the local to the reader. -/
def ptsReaderIntensityRange (configured : List ℚ) : List ℚ :=
  let localRange : List ℚ := []
  if configured.length = 0 then
    localRange ++ [-2048, 2047]
  else
    localRange

/-- The intensity range handed to the XYZPointReader for a .xyz or .txt
source (PotreeConverter.cpp line 163): the configured member is passed
directly. -/
def xyzReaderIntensityRange (configured : List ℚ) : List ℚ := configured

/-! ## Ingest cadence of the converter loop (PotreeConverter.cpp,
PotreeConverter::convert) -/

/-- The processing threshold (PotreeConverter.cpp line 96). -/
def PROCESS_COUNT : ℕ := 1000000

/-- The PotreeWriter as seen by the loop: its internal state is abstract, and
the loop calls add, processStore (together with waitUntilProcessed, whose
effect is folded into processStore here since the loop is sequential),
needs_flush and flush on it. -/
structure WriterOps (σ : Type) where
  add : σ → ℕ → σ
  processStore : σ → σ
  needs_flush : σ → Bool
  flush : σ → σ

/-- The loop state of PotreeConverter::convert: the writer, the running
counter pointsSinceLastProcessing and, per pushed batch, whether
processStore / waitUntilProcessed ran after it and whether flush ran after
it. -/
structure ConvertState (σ : Type) where
  writer : σ
  sinceLast : ℕ
  processEvents : List Bool
  flushEvents : List Bool

/-- Modelled from the spec: PotreeWriter::needs_flush is not under src; per
the spec, the writer requests a flush exactly when its memory estimate
exceeds the configured maximum. -/
def writerNeedsFlush (memEstimate : σ → ℕ) (maxMemoryMiB : ℕ) (st : σ) : Bool :=
  decide (maxMemoryMiB < memEstimate st)

/-- The writer state after one batch is ingested (PotreeConverter.cpp lines
566-577): writer.add, then, when the counter has reached the threshold,
writer.processStore and writer.waitUntilProcessed.  This is the state on
which writer.needs_flush is then asked. -/
def writerAfterIngest (threshold : ℕ) (w : WriterOps σ) (st : σ)
    (counter batch : ℕ) : σ :=
  let w1 := w.add st batch
  if threshold ≤ counter + batch then w.processStore w1 else w1

/-- One iteration of the batch loop (PotreeConverter.cpp lines 552-584):
the batch count is added to pointsSinceLastProcessing and the batch to the
writer; if the counter has reached PROCESS_COUNT it is decremented by
PROCESS_COUNT (not reset) and the store is processed to completion before
the next batch is admitted (lines 568-577); then, if the writer reports
needs_flush(), the writer is flushed (lines 578-583). -/
def convertStep (threshold : ℕ) (w : WriterOps σ) (s : ConvertState σ)
    (batch : ℕ) : ConvertState σ :=
  let c := s.sinceLast + batch
  let w2 := writerAfterIngest threshold w s.writer s.sinceLast batch
  let fl := w.needs_flush w2
  ⟨if fl then w.flush w2 else w2,
    if threshold ≤ c then c - threshold else c,
    s.processEvents ++ [decide (threshold ≤ c)],
    s.flushEvents ++ [fl]⟩

/-- The batch loop of PotreeConverter::convert run over a list of batch
sizes, starting from a zero counter and the given writer state. -/
def convertRun (threshold : ℕ) (w : WriterOps σ) (w0 : σ)
    (batches : List ℕ) : ConvertState σ :=
  batches.foldl (convertStep threshold w) ⟨w0, 0, [], []⟩

/-- A concrete writer instance: the state is the number of buffered points,
needs_flush is the spec memory test at a maximum of 3, flush drains. -/
def natWriter : WriterOps ℕ :=
  ⟨fun s b => s + b, fun s => s, writerNeedsFlush (fun s => s) 3, fun _ => 0⟩

/-! ## Tiling algorithms V1 and V2 (TilingAlgorithm header in src; the
method bodies are not under src and are modelled from spec section 4.4) -/

/-- One octant digit, numbered 0..7. -/
abbrev Octant := Fin 8

/-- A node of the implicit octree, identified by its octant-digit path
(spec section 3: the empty string is the root). -/
abbrev NodePath := List Octant

/-- The integer value of an octant-digit path: the base-8 numeral whose
digits are the octants, the Morton-style index of the spec glossary. -/
def pathNat (p : NodePath) : ℕ := p.foldl (fun n d => n * 8 + d.val) 0

/-- Whether the node path p is an initial segment of the path w: a point
whose Morton path is w is routed through every node p below it. -/
def startsWith : NodePath → NodePath → Bool
  | [], _ => true
  | _ :: _, [] => false
  | a :: p, b :: w => a == b && startsWith p w

/-- All node paths of length k, in increasing pathNat order: the bucket
nodes of the k-digit parallel partition performed by TilingAlgorithmV2. -/
def allPaths : ℕ → List NodePath
  | 0 => [[]]
  | k + 1 => (allPaths k).flatMap (fun p => (List.finRange 8).map (fun d => p ++ [d]))

/-- The tiler ordering on points: compare Morton indices of the per-point
keys.  Insertion sort with this ordering is the stable sort of the spec. -/
def mOrd (key : α → NodePath) : α → α → Prop :=
  fun u v => pathNat (key u) ≤ pathNat (key v)

instance mOrd.decidableRel (key : α → NodePath) : DecidableRel (mOrd key) :=
  fun _ _ => Nat.decLe _ _

instance mOrd.isTotal (key : α → NodePath) : IsTotal α (mOrd key) :=
  ⟨fun _ _ => Nat.le_total _ _⟩

instance mOrd.isTrans (key : α → NodePath) : IsTrans α (mOrd key) :=
  ⟨fun _ _ _ => Nat.le_trans⟩

/-- The stable Morton sort of a point batch. -/
def sortByKey (key : α → NodePath) (points : List α) : List α :=
  List.insertionSort (mOrd key) points

/-- Modelled from the spec: the body of TilingAlgorithmV1 is not under src.
Per spec section 4.4, V1 computes per-point Morton indices, stable-sorts the
whole batch sequentially, and partitions from the root by leading octant
digits.  The externally observable output at a node is the sequence of points
routed through that node in processing order: the Morton-sorted batch
restricted to the points whose Morton path descends from the node. -/
def v1NodePoints (key : α → NodePath) (points : List α) (node : NodePath) :
    List α :=
  (sortByKey key points).filter (fun x => startsWith node (key x))

/-- Modelled from the spec: the body of TilingAlgorithmV2 is not under src.
Per spec section 4.4, V2 computes per-point Morton indices, parallel-
partitions the batch by the first k octant digits into independent bucket
tasks (skipping the root), and each task sorts its own partition and
recurses.  The observable output at a node is the concatenation, over the
buckets in octant order, of the points the bucket task routes through that
node. -/
def v2NodePoints (key : α → NodePath) (k : ℕ) (points : List α)
    (node : NodePath) : List α :=
  (allPaths k).flatMap (fun b =>
    (sortByKey key (points.filter (fun x => startsWith b (key x)))).filter
      (fun x => startsWith node (key x)))

/-! ## Source list preparation (PotreeConverter.cpp, PotreeConverter::prepare
lines 191-222) -/

/-- Case-insensitive extension test (iEndsWith, declared in stuff.h). -/
def iEndsWith (s suf : String) : Bool :=
  s.toLower.endsWith suf.toLower

/-- The extensions accepted when expanding a directory source
(PotreeConverter.cpp lines 201-203). -/
def recognizedExt (p : String) : Bool :=
  iEndsWith p ".las" || iEndsWith p ".laz" || iEndsWith p ".xyz" ||
    iEndsWith p ".pts" || iEndsWith p ".ptx" || iEndsWith p ".ply"

/-- The filesystem as seen by prepare: which paths are directories, which are
regular files, and the regular files inside each directory. -/
structure FileSys where
  isDir : String → Bool
  isFile : String → Bool
  dirFiles : String → List String

/-- The per-source message printed by prepare (PotreeConverter.cpp
lines 211 and 218). -/
def cantOpenMsg (s : String) : String :=
  "Can't open input file \"" ++ s ++ "\""

/-- One iteration of the source loop of prepare (PotreeConverter.cpp
lines 193-213): a directory source contributes its regular files with
recognized extensions, a regular-file source contributes itself, and any
other source contributes only a per-source message.  The accumulator is the
pair (sourceFiles, messages). -/
def expandOne (fs : FileSys) (acc : List String × List String) (s : String) :
    List String × List String :=
  if fs.isDir s then
    (acc.1 ++ (fs.dirFiles s).filter recognizedExt, acc.2)
  else if fs.isFile s then
    (acc.1 ++ [s], acc.2)
  else
    (acc.1, acc.2 ++ [cantOpenMsg s])

/-- The source loop of prepare over all configured sources. -/
def expandSources (fs : FileSys) (sources : List String) :
    List String × List String :=
  sources.foldl (expandOne fs) ([], [])

/-- fs::exists as used by the second pass of prepare. -/
def fsExists (fs : FileSys) (p : String) : Bool := fs.isDir p || fs.isFile p

/-- The second pass of prepare (PotreeConverter.cpp lines 216-220): erase the
collected files that do not exist, printing a message for each. -/
def pruneMissing (fs : FileSys) (st : List String × List String) :
    List String × List String :=
  (st.1.filter (fsExists fs),
    st.2 ++ (st.1.filter (fun p => !fsExists fs p)).map cantOpenMsg)

/-- The full source preparation of prepare: expansion then pruning. -/
def prepareSources (fs : FileSys) (sources : List String) :
    List String × List String :=
  pruneMissing fs (expandSources fs sources)

/-- PotreeConverter::prepare (lines 188-242), the first call of convert:
verifyWorkDir runs first, and only on success are the sources scanned.  An
error from verifyWorkDir aborts before any further work. -/
def prepareModel (d : OutputDir) (storeOption : StoreOption) (fs : FileSys)
    (sources : List String) :
    Except String (OutputDir × List String × List String) :=
  match verifyWorkDir d storeOption with
  | .error e => .error e
  | .ok d2 => .ok (d2, prepareSources fs sources)

/-- The files a single source contributes to the expanded list. -/
def sourceContribution (fs : FileSys) (s : String) : List String :=
  if fs.isDir s then (fs.dirFiles s).filter recognizedExt
  else if fs.isFile s then [s]
  else []

/-- The messages a single source contributes during expansion. -/
def sourceMessages (fs : FileSys) (s : String) : List String :=
  if fs.isDir s then [] else if fs.isFile s then [] else [cantOpenMsg s]

/-! ## Root spacing from the bounding-box diagonal (PotreeConverter.cpp,
PotreeConverter::convert lines 520-523) -/

/-- A 3D vector over the rationals. -/
structure Vec3 where
  x : ℚ
  y : ℚ
  z : ℚ
deriving DecidableEq

/-- An axis-aligned bounding box given by its two corners. -/
structure BBox where
  lo : Vec3
  hi : Vec3
deriving DecidableEq

/-- The extent (size) vector of a bounding box. -/
def BBox.size (a : BBox) : Vec3 :=
  ⟨a.hi.x - a.lo.x, a.hi.y - a.lo.y, a.hi.z - a.lo.z⟩

/-- Modelled from the spec: AABB::makeCubic is not under src; per spec
section 4.1, make_cubic expands the smaller extents to match the largest,
centered. -/
def BBox.makeCubic (a : BBox) : BBox :=
  let s := a.size
  let m := Max.max s.x (Max.max s.y s.z)
  let cx := (a.lo.x + a.hi.x) / 2
  let cy := (a.lo.y + a.hi.y) / 2
  let cz := (a.lo.z + a.hi.z) / 2
  ⟨⟨cx - m / 2, cy - m / 2, cz - m / 2⟩, ⟨cx + m / 2, cy + m / 2, cz + m / 2⟩⟩

/-- The squared Euclidean length of a vector, kept in the rationals
(Vector3::length is the square root of this). -/
def Vec3.normSq (v : Vec3) : ℚ := v.x ^ 2 + v.y ^ 2 + v.z ^ 2

/-- The spacing computation of PotreeConverter::convert (lines 520-523),
performed after aabb.makeCubic(): when diagonalFraction is nonzero, spacing
is set to aabb.size.length() / diagonalFraction, otherwise the configured
spacing is kept.  Vector3::length lives outside src and is passed in as the
abstract length function len, applied to the size (diagonal vector) of the
cubic box. -/
def effectiveSpacing (len : Vec3 → ℚ) (aabb : BBox) (diagonalFraction : ℤ)
    (spacing : ℚ) : ℚ :=
  if diagonalFraction ≠ 0 then
    len (aabb.makeCubic.size) / (diagonalFraction : ℚ)
  else
    spacing

/-! ## Lemmas and theorems -/

/-- C10: for every progress value, including values below 0 or above 1,
get_progress_glyph computes an index clamped into [0, 8] before indexing its
nine-element glyph array, so the array access is always in bounds and the
function is total. -/
theorem progress_glyph_index_in_bounds (progress : ℚ) :
    0 ≤ progress_step progress ∧ progress_step progress ≤ 8 ∧
      (progress_step progress).toNat < glyphs.length ∧
      ∃ h : (progress_step progress).toNat < glyphs.length,
        get_progress_glyph progress = glyphs.get ⟨(progress_step progress).toNat, h⟩ := by
  have h0 : (0 : ℤ) ≤ progress_step progress := le_max_left 0 _
  have h8 : progress_step progress ≤ 8 :=
    max_le (by norm_num) (min_le_left 8 _)
  have hlen : glyphs.length = 9 := rfl
  have hlt : (progress_step progress).toNat < glyphs.length := by
    rw [hlen]; omega
  refine ⟨h0, h8, hlt, hlt, ?_⟩
  rw [get_progress_glyph, List.getD_eq_getElem glyphs " " hlt]
  simp [List.get_eq_getElem]

lemma chunk_flatten_take (str : List Char) (len : ℕ) :
    ∀ m, ((List.range m).map
        (fun i => (str.take ((i + 1) * len)).drop (i * len))).flatten
      = str.take (m * len) := by
  intro m
  induction m with
  | zero => simp
  | succ m ih =>
    rw [List.range_succ, List.map_append, List.flatten_append, ih]
    have hmin : str.take (m * len) = (str.take ((m + 1) * len)).take (m * len) := by
      rw [List.take_take, Nat.min_eq_left (by nlinarith)]
    calc str.take (m * len) ++
          ((List.range' m 1).map
            (fun i => (str.take ((i + 1) * len)).drop (i * len))).flatten
        = str.take (m * len) ++ (str.take ((m + 1) * len)).drop (m * len) := by
          simp [List.range']
      _ = (str.take ((m + 1) * len)).take (m * len) ++
            (str.take ((m + 1) * len)).drop (m * len) := by rw [← hmin]
      _ = str.take ((m + 1) * len) := List.take_append_drop _ _

/-- C9: for every content string and every positive line width,
TerminalMultilineLabel::render splits the content into consecutive chunks each
of length at most the line width, and the concatenation of the chunks in order
equals the original content string. -/
theorem chunk_string_round_trip (str : List Char) (len : ℕ) (hlen : 0 < len) :
    (∀ c ∈ chunk_string str len, c.length ≤ len) ∧
      (chunk_string str len).flatten = str := by
  constructor
  · intro c hc
    rw [chunk_string, List.mem_map] at hc
    obtain ⟨i, _, rfl⟩ := hc
    rw [List.length_drop, List.length_take]
    have : (i + 1) * len = i * len + len := by ring
    omega
  · rw [chunk_string, chunk_flatten_take]
    apply List.take_of_length_le
    rcases Nat.eq_zero_or_pos str.length with h0 | hpos
    · simp [h0]
    · have hdm := Nat.div_add_mod' (str.length + len - 1) len
      have hm : (str.length + len - 1) % len < len := Nat.mod_lt _ hlen
      omega

/-- Witness for C9 at a concrete input. -/
theorem chunk_string_round_trip_witness :
    (0 < 2) ∧
      ((∀ c ∈ chunk_string ['a', 'b', 'c', 'd', 'e'] 2, c.length ≤ 2) ∧
        (chunk_string ['a', 'b', 'c', 'd', 'e'] 2).flatten = ['a', 'b', 'c', 'd', 'e']) :=
  ⟨by decide, chunk_string_round_trip ['a', 'b', 'c', 'd', 'e'] 2 (by decide)⟩

/-- C4: the coordinate transform used for a run is the identity transform in
exactly these cases: source_projection is absent, source_projection equals the
WGS84 description, or setting up the projection-based transform fails (the run
continues); otherwise the projection-based transform for the given description
is used. -/
theorem transformation_helper_cases (proj4Ok : String → Bool)
    (sourceProjection : Option String) :
    (get_transformation_helper proj4Ok sourceProjection = .identity ↔
      sourceProjection = none ∨ sourceProjection = some wgs84 ∨
        ∃ s, sourceProjection = some s ∧ proj4Ok s = false) ∧
    (∀ s, get_transformation_helper proj4Ok sourceProjection = .proj4 s ↔
      sourceProjection = some s ∧ s ≠ wgs84 ∧ proj4Ok s = true) := by
  constructor
  · cases sourceProjection with
    | none => simp [get_transformation_helper]
    | some s =>
      by_cases hw : s = wgs84
      · subst hw; simp [get_transformation_helper]
      · by_cases hok : proj4Ok s
        · have hp : get_transformation_helper proj4Ok (some s) = .proj4 s := by
            simp [get_transformation_helper, hw, hok]
          rw [hp]
          constructor
          · intro h; simp at h
          · rintro (h | h | ⟨s', hs', hok'⟩)
            · simp at h
            · exact absurd (Option.some.inj h) hw
            · obtain rfl := Option.some.inj hs'
              simp [hok] at hok'
        · simp only [Bool.not_eq_true] at hok
          have hi : get_transformation_helper proj4Ok (some s) = .identity := by
            simp [get_transformation_helper, hw, hok]
          rw [hi]
          exact ⟨fun _ => Or.inr (Or.inr ⟨s, rfl, hok⟩), fun _ => rfl⟩
  · intro t
    cases sourceProjection with
    | none => simp [get_transformation_helper]
    | some s =>
      constructor
      · intro h
        by_cases hw : s = wgs84
        · subst hw; simp [get_transformation_helper] at h
        · by_cases hok : proj4Ok s
          · simp only [get_transformation_helper, if_neg hw, if_pos hok] at h
            obtain rfl := (Transform.proj4.injEq _ _).mp h.symm
            exact ⟨rfl, hw, hok⟩
          · simp only [Bool.not_eq_true] at hok
            simp [get_transformation_helper, hw, hok] at h
      · rintro ⟨h1, h2, h3⟩
        obtain rfl := Option.some.inj h1
        simp [get_transformation_helper, h2, h3]

/-- C3: whenever store_option is ABORT_IF_EXISTS and r.json exists in the
output directory, the run fails with the abort error before any conversion
work is performed and before any existing output entry is modified or
removed: verifyWorkDir, the first action of prepare and hence of convert,
returns the error and no altered directory state. -/
theorem verifyWorkDir_aborts_when_output_exists (d : OutputDir)
    (hdir : d.dirExists = true) (hroot : rjson ∈ d.entries) :
    verifyWorkDir d .ABORT_IF_EXISTS = .error outputExistsMsg ∧
      ∀ (fs : FileSys) (sources : List String),
        prepareModel d .ABORT_IF_EXISTS fs sources = .error outputExistsMsg := by
  have hv : verifyWorkDir d .ABORT_IF_EXISTS = .error outputExistsMsg := by
    rw [verifyWorkDir, if_pos hdir, if_pos ⟨hroot, rfl⟩]
  exact ⟨hv, fun fs sources => by rw [prepareModel, hv]⟩

/-- Witness for C3 at a concrete populated output directory. -/
theorem verifyWorkDir_aborts_when_output_exists_witness :
    ((⟨true, ["r.json", "data"]⟩ : OutputDir).dirExists = true ∧
      rjson ∈ (⟨true, ["r.json", "data"]⟩ : OutputDir).entries) ∧
    verifyWorkDir ⟨true, ["r.json", "data"]⟩ .ABORT_IF_EXISTS =
      .error outputExistsMsg :=
  ⟨⟨rfl, by decide⟩,
    (verifyWorkDir_aborts_when_output_exists ⟨true, ["r.json", "data"]⟩ rfl
      (by decide)).1⟩

/-- C5: for every populated output directory, when store_option is OVERWRITE
the preparation step removes all pre-existing entries of the output directory,
so the pre-existing r.json is gone (to be replaced by the run) and no stale
node files remain. -/
theorem verifyWorkDir_overwrite_clears (d : OutputDir)
    (hdir : d.dirExists = true) :
    verifyWorkDir d .OVERWRITE = .ok ⟨true, []⟩ ∧
      ∀ e ∈ d.entries, e ∉ (⟨true, ([] : List String)⟩ : OutputDir).entries := by
  refine ⟨?_, by intro e _ h; exact absurd h (List.not_mem_nil e)⟩
  rw [verifyWorkDir, if_pos hdir, if_neg (by rintro ⟨_, h⟩; cases h),
    if_neg (by intro h; cases h)]

/-- Witness for C5 at a concrete populated output directory. -/
theorem verifyWorkDir_overwrite_clears_witness :
    ((⟨true, ["r.json", "data", "cloud.js"]⟩ : OutputDir).dirExists = true) ∧
    verifyWorkDir ⟨true, ["r.json", "data", "cloud.js"]⟩ .OVERWRITE =
      .ok ⟨true, []⟩ :=
  ⟨rfl, (verifyWorkDir_overwrite_clears ⟨true, ["r.json", "data", "cloud.js"]⟩
    rfl).1⟩

/-- C7 (code bug): for a .pts source the configured intensity_range is never
used.  The shadowing local vector stays empty whenever a range is configured,
so the reader receives the empty range instead of the configured one; the
default range is substituted only when no range is configured.  Evaluated at
the failing input intensity_range = [0, 255]. -/
theorem ptsReaderIntensityRange_drops_configured :
    ptsReaderIntensityRange [0, 255] = [] ∧
      ptsReaderIntensityRange [0, 255] ≠ [0, 255] ∧
      ptsReaderIntensityRange [] = [-2048, 2047] ∧
      xyzReaderIntensityRange [0, 255] = [0, 255] := by
  refine ⟨rfl, ?_, rfl, rfl⟩
  intro h
  simp [ptsReaderIntensityRange] at h

/-- C2 counterexample: on the batch sequence [2000000, 1] the code processes
the store after both batches, although only one point was queued between the
first processing and the second, far below the threshold of 1000000.  The
claimed trigger rule (process exactly when at least process_threshold points
were queued since the last processing) therefore does not match the code. -/
theorem convert_cadence_counterexample :
    (convertRun PROCESS_COUNT natWriter 0 [2000000, 1]).processEvents =
      [true, true] ∧ (1 : ℕ) < PROCESS_COUNT := by
  constructor
  · rfl
  · decide

lemma convertRun_conservation (threshold : ℕ) (w : WriterOps σ)
    (batches : List ℕ) :
    ∀ s : ConvertState σ,
      (batches.foldl (convertStep threshold w) s).sinceLast +
          threshold *
            (batches.foldl (convertStep threshold w) s).processEvents.count true =
        s.sinceLast + batches.sum + threshold * s.processEvents.count true ∧
      (batches.foldl (convertStep threshold w) s).processEvents.length =
        s.processEvents.length + batches.length ∧
      (batches.foldl (convertStep threshold w) s).flushEvents.length =
        s.flushEvents.length + batches.length := by
  induction batches with
  | nil => intro s; simp
  | cons b bs ih =>
    intro s
    obtain ⟨ih1, ih2, ih3⟩ := ih (convertStep threshold w s b)
    have hE : (convertStep threshold w s b).processEvents =
        s.processEvents ++ [decide (threshold ≤ s.sinceLast + b)] := rfl
    have hF : (convertStep threshold w s b).flushEvents =
        s.flushEvents ++
          [w.needs_flush (writerAfterIngest threshold w s.writer s.sinceLast b)] :=
      rfl
    have hS : (convertStep threshold w s b).sinceLast =
        if threshold ≤ s.sinceLast + b then s.sinceLast + b - threshold
        else s.sinceLast + b := rfl
    have hcount : (s.processEvents ++
          [decide (threshold ≤ s.sinceLast + b)]).count true =
        s.processEvents.count true +
          (if threshold ≤ s.sinceLast + b then 1 else 0) := by
      rw [List.count_append]
      by_cases h : threshold ≤ s.sinceLast + b
      · rw [if_pos h, decide_eq_true h]
        rfl
      · rw [if_neg h, decide_eq_false h]
        rfl
    refine ⟨?_, ?_, ?_⟩
    · rw [List.foldl_cons, ih1, hE, hS, hcount]
      by_cases h : threshold ≤ s.sinceLast + b
      · rw [if_pos h, if_pos h, List.sum_cons, Nat.mul_add, Nat.mul_one]
        omega
      · rw [if_neg h, if_neg h, List.sum_cons, Nat.mul_add, Nat.mul_zero]
        omega
    · rw [List.foldl_cons, ih2, hE]
      simp only [List.length_append, List.length_cons, List.length_nil]
      omega
    · rw [List.foldl_cons, ih3, hF]
      simp only [List.length_append, List.length_cons, List.length_nil]
      omega

lemma convertRun_totals (threshold : ℕ) (w : WriterOps σ) (w0 : σ)
    (batches : List ℕ) :
    (convertRun threshold w w0 batches).sinceLast +
        threshold *
          (convertRun threshold w w0 batches).processEvents.count true =
      batches.sum ∧
    (convertRun threshold w w0 batches).processEvents.length =
      batches.length ∧
    (convertRun threshold w w0 batches).flushEvents.length = batches.length := by
  obtain ⟨h1, h2, h3⟩ :=
    convertRun_conservation threshold w batches ⟨w0, 0, [], []⟩
  simp only [List.count_nil, Nat.mul_zero, Nat.add_zero, List.length_nil,
    Nat.zero_add] at h1 h2 h3
  rw [convertRun]
  exact ⟨h1, h2, h3⟩

lemma foldl_convertStep_events (threshold : ℕ) (w : WriterOps σ) :
    ∀ (l : List ℕ) (s : ConvertState σ),
      ∃ t u : List Bool,
        (l.foldl (convertStep threshold w) s).processEvents =
          s.processEvents ++ t ∧
        (l.foldl (convertStep threshold w) s).flushEvents =
          s.flushEvents ++ u := by
  intro l
  induction l with
  | nil => intro s; exact ⟨[], [], by simp, by simp⟩
  | cons b l ih =>
    intro s
    obtain ⟨t, u, ht, hu⟩ := ih (convertStep threshold w s b)
    refine ⟨[decide (threshold ≤ s.sinceLast + b)] ++ t,
      [w.needs_flush (writerAfterIngest threshold w s.writer s.sinceLast b)] ++ u,
      ?_, ?_⟩
    · rw [List.foldl_cons, ht,
        show (convertStep threshold w s b).processEvents =
          s.processEvents ++ [decide (threshold ≤ s.sinceLast + b)] from rfl,
        List.append_assoc]
    · rw [List.foldl_cons, hu,
        show (convertStep threshold w s b).flushEvents =
          s.flushEvents ++
            [w.needs_flush
              (writerAfterIngest threshold w s.writer s.sinceLast b)] from rfl,
        List.append_assoc]

/-- C2 (amended): for every sequence of input batches, split as pre ++ b ::
post, the loop processes the accumulated points to completion (processStore
then waitUntilProcessed) after pushing batch b exactly when
process_threshold times the number of processings already performed, plus
process_threshold, is at most the total points pushed through b -- that is,
exactly when the running counter, which carries the surplus because each
processing subtracts process_threshold rather than resetting, has reached
process_threshold (default 1000000).  A flush is triggered after b exactly
when the writer, whose needs_flush is the spec memory test, reports a memory
estimate above the configured maximum for its state after ingesting b.  No
new batch is admitted during a processing (the loop is sequential: one
process decision and one flush decision per batch, in order), and after any
batch sequence the counter equals the total pushed minus process_threshold
times the number of processings. -/
theorem convert_cadence_amended (threshold : ℕ) {σ : Type} (w : WriterOps σ)
    (w0 : σ) (memEstimate : σ → ℕ) (maxMemoryMiB : ℕ)
    (hnf : w.needs_flush = writerNeedsFlush memEstimate maxMemoryMiB)
    (pre : List ℕ) (b : ℕ) (post : List ℕ) :
    ((convertRun threshold w w0 (pre ++ b :: post)).processEvents.take
        (pre.length + 1) =
      (convertRun threshold w w0 pre).processEvents ++
        [decide (threshold *
            ((convertRun threshold w w0 pre).processEvents.count true) +
          threshold ≤ pre.sum + b)]) ∧
    ((convertRun threshold w w0 (pre ++ b :: post)).flushEvents.take
        (pre.length + 1) =
      (convertRun threshold w w0 pre).flushEvents ++
        [decide (maxMemoryMiB < memEstimate (writerAfterIngest threshold w
          (convertRun threshold w w0 pre).writer
          (convertRun threshold w w0 pre).sinceLast b))]) ∧
    ((convertRun threshold w w0 (pre ++ b :: post)).sinceLast +
        threshold *
          ((convertRun threshold w w0 (pre ++ b :: post)).processEvents.count
            true) =
      (pre ++ b :: post).sum) ∧
    (convertRun threshold w w0 (pre ++ b :: post)).processEvents.length =
      (pre ++ b :: post).length ∧
    (convertRun threshold w w0 (pre ++ b :: post)).flushEvents.length =
      (pre ++ b :: post).length := by
  obtain ⟨hc1, hc2, hc3⟩ := convertRun_totals threshold w w0 pre
  have hrunfull : convertRun threshold w w0 (pre ++ b :: post) =
      post.foldl (convertStep threshold w)
        (convertStep threshold w (convertRun threshold w w0 pre) b) := by
    rw [convertRun, convertRun, List.foldl_append, List.foldl_cons]
  obtain ⟨t, u, ht, hu⟩ := foldl_convertStep_events threshold w post
    (convertStep threshold w (convertRun threshold w w0 pre) b)
  have hPE : (convertRun threshold w w0 (pre ++ b :: post)).processEvents =
      ((convertRun threshold w w0 pre).processEvents ++
        [decide (threshold ≤
          (convertRun threshold w w0 pre).sinceLast + b)]) ++ t := by
    rw [hrunfull, ht]
    rfl
  have hFE : (convertRun threshold w w0 (pre ++ b :: post)).flushEvents =
      ((convertRun threshold w w0 pre).flushEvents ++
        [w.needs_flush (writerAfterIngest threshold w
          (convertRun threshold w w0 pre).writer
          (convertRun threshold w w0 pre).sinceLast b)]) ++ u := by
    rw [hrunfull, hu]
    rfl
  obtain ⟨hf1, hf2, hf3⟩ := convertRun_totals threshold w w0 (pre ++ b :: post)
  refine ⟨?_, ?_, hf1, hf2, hf3⟩
  · rw [hPE, List.take_left' (by simp [hc2])]
    have : decide (threshold ≤ (convertRun threshold w w0 pre).sinceLast + b) =
        decide (threshold *
            ((convertRun threshold w w0 pre).processEvents.count true) +
          threshold ≤ pre.sum + b) := by
      apply decide_eq_decide.mpr
      omega
    rw [this]
  · rw [hFE, List.take_left' (by simp [hc3]), hnf]
    rfl

/-- Witness for C2 (amended) at a concrete writer and batch split. -/
theorem convert_cadence_amended_witness :
    (natWriter.needs_flush = writerNeedsFlush (fun s : ℕ => s) 3) ∧
    (((convertRun 1000000 natWriter 0 ([2000000] ++ 1 :: [])).processEvents.take
          ([2000000].length + 1) =
        (convertRun 1000000 natWriter 0 [2000000]).processEvents ++
          [decide (1000000 *
              ((convertRun 1000000 natWriter 0 [2000000]).processEvents.count
                true) + 1000000 ≤ [2000000].sum + 1)]) ∧
      ((convertRun 1000000 natWriter 0 ([2000000] ++ 1 :: [])).flushEvents.take
          ([2000000].length + 1) =
        (convertRun 1000000 natWriter 0 [2000000]).flushEvents ++
          [decide (3 < (fun s : ℕ => s) (writerAfterIngest 1000000 natWriter
            (convertRun 1000000 natWriter 0 [2000000]).writer
            (convertRun 1000000 natWriter 0 [2000000]).sinceLast 1))]) ∧
      ((convertRun 1000000 natWriter 0 ([2000000] ++ 1 :: [])).sinceLast +
          1000000 *
            ((convertRun 1000000 natWriter 0
              ([2000000] ++ 1 :: [])).processEvents.count true) =
        ([2000000] ++ 1 :: []).sum) ∧
      (convertRun 1000000 natWriter 0
          ([2000000] ++ 1 :: [])).processEvents.length =
        ([2000000] ++ 1 :: []).length ∧
      (convertRun 1000000 natWriter 0
          ([2000000] ++ 1 :: [])).flushEvents.length =
        ([2000000] ++ 1 :: []).length) :=
  ⟨rfl, convert_cadence_amended 1000000 natWriter 0 (fun s : ℕ => s) 3 rfl
    [2000000] 1 []⟩

lemma pathNat_foldl (w : NodePath) :
    ∀ n : ℕ, w.foldl (fun n d => n * 8 + d.val) n = n * 8 ^ w.length + pathNat w := by
  induction w with
  | nil => intro n; simp [pathNat]
  | cons d w ih =>
    intro n
    have h1 : (d :: w).foldl (fun n d => n * 8 + d.val) n =
        w.foldl (fun n d => n * 8 + d.val) (n * 8 + d.val) := rfl
    have h2 : pathNat (d :: w) = w.foldl (fun n d => n * 8 + d.val) d.val := by
      have : pathNat (d :: w) = w.foldl (fun n d => n * 8 + d.val) (0 * 8 + d.val) := rfl
      simpa using this
    rw [h1, ih, h2, ih]
    simp only [List.length_cons, pow_succ]
    ring

lemma pathNat_cons (d : Octant) (w : NodePath) :
    pathNat (d :: w) = d.val * 8 ^ w.length + pathNat w := by
  have : pathNat (d :: w) = w.foldl (fun n d => n * 8 + d.val) (0 * 8 + d.val) := rfl
  rw [this, pathNat_foldl]
  ring_nf

lemma pathNat_append (u v : NodePath) :
    pathNat (u ++ v) = pathNat u * 8 ^ v.length + pathNat v := by
  have : pathNat (u ++ v) = v.foldl (fun n d => n * 8 + d.val) (pathNat u) := by
    rw [pathNat, List.foldl_append]; rfl
  rw [this, pathNat_foldl]

lemma pathNat_lt (w : NodePath) : pathNat w < 8 ^ w.length := by
  induction w with
  | nil => simp [pathNat]
  | cons d w ih =>
    have hd : d.val ≤ 7 := Nat.lt_succ_iff.mp d.isLt
    have h1 : d.val * 8 ^ w.length ≤ 7 * 8 ^ w.length :=
      Nat.mul_le_mul_right _ hd
    rw [pathNat_cons]
    simp only [List.length_cons, pow_succ]
    omega

lemma startsWith_take (p : NodePath) :
    ∀ w : NodePath, startsWith p w = true → w.take p.length = p := by
  induction p with
  | nil => intro w _; simp
  | cons a p ih =>
    intro w h
    cases w with
    | nil => cases h
    | cons b w =>
      rw [startsWith, Bool.and_eq_true, beq_iff_eq] at h
      obtain ⟨rfl, h2⟩ := h
      simp [List.take_succ_cons, ih w h2]

lemma eq_append_of_startsWith (p w : NodePath) (h : startsWith p w = true) :
    w = p ++ w.drop p.length := by
  conv_lhs => rw [← List.take_append_drop p.length w]
  rw [startsWith_take p w h]

lemma length_le_of_startsWith (p w : NodePath) (h : startsWith p w = true) :
    p.length ≤ w.length := by
  have := congrArg List.length (startsWith_take p w h)
  rw [List.length_take] at this
  omega

lemma startsWith_take_self (k : ℕ) :
    ∀ w : NodePath, k ≤ w.length → startsWith (w.take k) w = true := by
  induction k with
  | zero => intro w _; simp [List.take_zero, startsWith]
  | succ k ih =>
    intro w hk
    cases w with
    | nil => simp at hk
    | cons b w =>
      rw [List.take_succ_cons, startsWith, Bool.and_eq_true, beq_iff_eq]
      exact ⟨rfl, ih w (Nat.succ_le_succ_iff.mp hk)⟩

lemma startsWith_eq_take {p w : NodePath} {k : ℕ} (hlen : p.length = k)
    (h : startsWith p w = true) : p = w.take k := by
  rw [← hlen, startsWith_take p w h]

lemma mem_allPaths_length : ∀ k, ∀ p ∈ allPaths k, p.length = k := by
  intro k
  induction k with
  | zero => intro p hp; simp [allPaths] at hp; simp [hp]
  | succ k ih =>
    intro p hp
    rw [allPaths, List.mem_flatMap] at hp
    obtain ⟨q, hq, hp⟩ := hp
    rw [List.mem_map] at hp
    obtain ⟨d, _, rfl⟩ := hp
    simp [ih q hq]

lemma take_mem_allPaths : ∀ k, ∀ w : NodePath, k ≤ w.length →
    w.take k ∈ allPaths k := by
  intro k
  induction k with
  | zero => intro w _; simp [allPaths]
  | succ k ih =>
    intro w hk
    have hklt : k < w.length := hk
    rw [List.take_succ, List.getElem?_eq_getElem hklt]
    rw [allPaths, List.mem_flatMap]
    refine ⟨w.take k, ih w (Nat.le_of_lt hklt), ?_⟩
    rw [List.mem_map]
    exact ⟨w[k], List.mem_finRange _, rfl⟩

lemma pairwise_flatMap_of {β γ : Type*} (R : β → β → Prop) (f : γ → List β) :
    ∀ L : List γ, (∀ c ∈ L, (f c).Pairwise R) →
      L.Pairwise (fun c c' => ∀ x ∈ f c, ∀ y ∈ f c', R x y) →
      (L.flatMap f).Pairwise R := by
  intro L
  induction L with
  | nil => intro _ _; simp
  | cons c L ih =>
    intro h1 h2
    rw [List.flatMap_cons, List.pairwise_append]
    refine ⟨h1 c (List.mem_cons_self c L),
      ih (fun c' hc' => h1 c' (List.mem_cons_of_mem c hc'))
        (List.Pairwise.of_cons h2), ?_⟩
    intro x hx y hy
    rw [List.mem_flatMap] at hy
    obtain ⟨c', hc', hy⟩ := hy
    exact (List.pairwise_cons.mp h2).1 c' hc' x hx y hy

lemma allPaths_pairwise : ∀ k, (allPaths k).Pairwise
    (fun b b' => pathNat b < pathNat b') := by
  intro k
  induction k with
  | zero => simp [allPaths]
  | succ k ih =>
    rw [allPaths]
    apply pairwise_flatMap_of
    · intro p _
      rw [List.pairwise_map]
      have hfin : (List.finRange 8).Pairwise (fun d d' : Octant => d.val < d'.val) := by
        decide
      apply hfin.imp
      intro d d' hdd
      rw [pathNat_append, pathNat_append]
      simp only [List.length_cons, List.length_nil]
      have h1 : pathNat [d] = d.val := by simp [pathNat]
      have h2 : pathNat [d'] = d'.val := by simp [pathNat]
      omega
    · apply ih.imp
      intro p p' hpp x hx y hy
      rw [List.mem_map] at hx hy
      obtain ⟨d, _, rfl⟩ := hx
      obtain ⟨d', _, rfl⟩ := hy
      rw [pathNat_append, pathNat_append]
      simp only [List.length_cons, List.length_nil]
      have h1 : pathNat [d] = d.val := by simp [pathNat]
      have h2 : pathNat [d'] = d'.val := by simp [pathNat]
      have hd : d.val < 8 := d.isLt
      have hd' : d'.val < 8 := d'.isLt
      have : pathNat p + 1 ≤ pathNat p' := hpp
      omega

lemma orderedInsert_eq_cons (r : α → α → Prop) [DecidableRel r] (a : α) :
    ∀ l : List α, (∀ x ∈ l, r a x) → l.orderedInsert r a = a :: l
  | [], _ => rfl
  | b :: l, h => by
    rw [List.orderedInsert, if_pos (h b (List.mem_cons_self b l))]

lemma orderedInsert_append_of_le (r : α → α → Prop) [DecidableRel r] (a : α) :
    ∀ u v : List α, (∀ x ∈ v, r a x) →
      (u ++ v).orderedInsert r a = u.orderedInsert r a ++ v
  | [], v, h => by
    rw [List.nil_append, List.orderedInsert_nil, orderedInsert_eq_cons r a v h]
    rfl
  | c :: u, v, h => by
    rw [List.cons_append, List.orderedInsert, List.orderedInsert]
    by_cases hc : r a c
    · rw [if_pos hc, if_pos hc, List.cons_append, List.cons_append]
    · rw [if_neg hc, if_neg hc, List.cons_append,
        orderedInsert_append_of_le r a u v h]

lemma orderedInsert_append_of_not (r : α → α → Prop) [DecidableRel r] (a : α) :
    ∀ u v : List α, (∀ x ∈ u, ¬r a x) →
      (u ++ v).orderedInsert r a = u ++ v.orderedInsert r a
  | [], _, _ => rfl
  | c :: u, v, h => by
    rw [List.cons_append, List.orderedInsert,
      if_neg (h c (List.mem_cons_self c u)), List.cons_append,
      orderedInsert_append_of_not r a u v
        (fun x hx => h x (List.mem_cons_of_mem c hx))]

lemma filter_orderedInsert (key : α → NodePath) (p : α → Bool) (a : α) :
    ∀ l : List α, l.Sorted (mOrd key) →
      (l.orderedInsert (mOrd key) a).filter p =
        if p a then (l.filter p).orderedInsert (mOrd key) a else l.filter p
  | [], _ => by
    rw [List.orderedInsert_nil]
    by_cases hp : p a
    · simp [hp]
    · simp [hp]
  | b :: t, hs => by
    have hst : t.Sorted (mOrd key) := hs.of_cons
    have hbt : ∀ x ∈ t, mOrd key b x := List.rel_of_sorted_cons hs
    rw [List.orderedInsert]
    by_cases hab : mOrd key a b
    · rw [if_pos hab]
      by_cases hp : p a
      · rw [List.filter_cons, if_pos hp, if_pos hp]
        rw [orderedInsert_eq_cons (mOrd key) a ((b :: t).filter p)]
        intro x hx
        rcases List.mem_filter.mp hx with ⟨hx, _⟩
        rcases List.mem_cons.mp hx with rfl | hx
        · exact hab
        · exact Trans.trans hab (hbt x hx)
      · rw [List.filter_cons, if_neg hp, if_neg hp]
    · rw [if_neg hab]
      rw [List.filter_cons]
      by_cases hpb : p b
      · rw [if_pos hpb, List.filter_cons, if_pos hpb,
          filter_orderedInsert key p a t hst]
        by_cases hp : p a
        · rw [if_pos hp, if_pos hp, List.orderedInsert, if_neg hab]
        · rw [if_neg hp, if_neg hp]
      · rw [if_neg hpb, List.filter_cons, if_neg hpb,
          filter_orderedInsert key p a t hst]

lemma filter_sortByKey (key : α → NodePath) (p : α → Bool) :
    ∀ l : List α, (sortByKey key l).filter p = sortByKey key (l.filter p)
  | [] => rfl
  | a :: l => by
    rw [sortByKey, List.insertionSort,
      filter_orderedInsert key p a _
        (List.sorted_insertionSort (mOrd key) l)]
    have ih : (List.insertionSort (mOrd key) l).filter p =
        sortByKey key (l.filter p) := filter_sortByKey key p l
    rw [ih, List.filter_cons]
    by_cases hp : p a
    · rw [if_pos hp, if_pos hp, sortByKey, sortByKey, List.insertionSort]
    · rw [if_neg hp, if_neg hp]

lemma flatMap_const_nil {β : Type*} (L : List β) :
    L.flatMap (fun _ => ([] : List α)) = [] := by
  induction L with
  | nil => rfl
  | cons b L ih => rw [List.flatMap_cons, ih]; rfl

lemma flatMap_congr_of_mem {β : Type*} {f g : β → List α} :
    ∀ L : List β, (∀ b ∈ L, f b = g b) → L.flatMap f = L.flatMap g := by
  intro L
  induction L with
  | nil => intro _; rfl
  | cons b L ih =>
    intro h
    rw [List.flatMap_cons, List.flatMap_cons, h b (List.mem_cons_self b L),
      ih (fun c hc => h c (List.mem_cons_of_mem b hc))]

lemma pathNat_lt_of_bucket_lt (key : α → NodePath) {D k : ℕ} {x y : α}
    {b b' : NodePath}
    (hbx : startsWith b (key x) = true) (hby : startsWith b' (key y) = true)
    (hlb : b.length = k) (hlb' : b'.length = k)
    (hlx : (key x).length = D) (hly : (key y).length = D)
    (hbb : pathNat b < pathNat b') : pathNat (key x) < pathNat (key y) := by
  have hx : pathNat (key x) =
      pathNat b * 8 ^ (D - k) + pathNat ((key x).drop b.length) := by
    conv_lhs => rw [eq_append_of_startsWith b (key x) hbx]
    rw [pathNat_append, List.length_drop, hlx, hlb]
  have hy : pathNat (key y) =
      pathNat b' * 8 ^ (D - k) + pathNat ((key y).drop b'.length) := by
    conv_lhs => rw [eq_append_of_startsWith b' (key y) hby]
    rw [pathNat_append, List.length_drop, hly, hlb']
  rw [hlb] at hx
  rw [hlb'] at hy
  have hsx : pathNat ((key x).drop k) < 8 ^ (D - k) := by
    have := pathNat_lt ((key x).drop k)
    rwa [List.length_drop, hlx] at this
  have hstep : (pathNat b + 1) * 8 ^ (D - k) ≤ pathNat b' * 8 ^ (D - k) :=
    Nat.mul_le_mul_right _ hbb
  have hmul : (pathNat b + 1) * 8 ^ (D - k) =
      pathNat b * 8 ^ (D - k) + 8 ^ (D - k) := by ring
  omega

lemma orderedInsert_flatMap (key : α → NodePath) (D k : ℕ) (a : α)
    (hka : (key a).length = D) (hk : k ≤ D) :
    ∀ (B : List NodePath) (g : NodePath → List α),
      (∀ b ∈ B, b.length = k) →
      B.Pairwise (fun b b' => pathNat b < pathNat b') →
      (key a).take k ∈ B →
      (∀ b ∈ B, ∀ x ∈ g b,
        startsWith b (key x) = true ∧ (key x).length = D) →
      (B.flatMap g).orderedInsert (mOrd key) a =
        B.flatMap (fun b =>
          if startsWith b (key a) then (g b).orderedInsert (mOrd key) a
          else g b) := by
  intro B
  induction B with
  | nil => intro g _ _ hmem _; exact absurd hmem (List.not_mem_nil _)
  | cons b B ih =>
    intro g hlenB hpw hmem hg
    have hlb : b.length = k := hlenB b (List.mem_cons_self b B)
    have hpwt : B.Pairwise (fun b b' => pathNat b < pathNat b') :=
      hpw.of_cons
    have hhead : ∀ b' ∈ B, pathNat b < pathNat b' :=
      (List.pairwise_cons.mp hpw).1
    have hswa : startsWith ((key a).take k) (key a) = true :=
      startsWith_take_self k (key a) (hka ▸ hk)
    rw [List.flatMap_cons, List.flatMap_cons]
    by_cases hsb : startsWith b (key a)
    · have hbtake : b = (key a).take k := startsWith_eq_take hlb hsb
      have hfalse : ∀ b' ∈ B, ¬(startsWith b' (key a) = true) := by
        intro b' hb' hsb'
        have : b' = (key a).take k :=
          startsWith_eq_take (hlenB b' (List.mem_cons_of_mem b hb')) hsb'
        have hne := hhead b' hb'
        rw [hbtake, this] at hne
        exact absurd hne (lt_irrefl _)
      have hv : ∀ x ∈ B.flatMap g, mOrd key a x := by
        intro x hx
        rw [List.mem_flatMap] at hx
        obtain ⟨b', hb', hx⟩ := hx
        obtain ⟨hswx, hlex⟩ := hg b' (List.mem_cons_of_mem b hb') x hx
        exact Nat.le_of_lt (pathNat_lt_of_bucket_lt key hsb hswx hlb
          (hlenB b' (List.mem_cons_of_mem b hb')) hka hlex (hhead b' hb'))
      rw [orderedInsert_append_of_le (mOrd key) a (g b) (B.flatMap g) hv,
        if_pos hsb]
      congr 1
      apply flatMap_congr_of_mem
      intro b' hb'
      rw [if_neg (hfalse b' hb')]
    · have hmem' : (key a).take k ∈ B := by
        rcases List.mem_cons.mp hmem with heq | hmem'
        · rw [heq] at hswa
          exact absurd hswa hsb
        · exact hmem'
      have hbtka : pathNat b < pathNat ((key a).take k) :=
        hhead _ hmem'
      have hu : ∀ x ∈ g b, ¬mOrd key a x := by
        intro x hx
        obtain ⟨hswx, hlex⟩ := hg b (List.mem_cons_self b B) x hx
        have hxa : pathNat (key x) < pathNat (key a) :=
          pathNat_lt_of_bucket_lt key hswx hswa hlb
            (by rw [List.length_take, hka]; omega) hlex hka hbtka
        exact Nat.not_le.mpr hxa
      rw [orderedInsert_append_of_not (mOrd key) a (g b) (B.flatMap g) hu,
        if_neg hsb]
      congr 1
      exact ih g (fun b' hb' => hlenB b' (List.mem_cons_of_mem b hb')) hpwt
        hmem' (fun b' hb' => hg b' (List.mem_cons_of_mem b hb'))

lemma sortByKey_bucket_decomp (key : α → NodePath) (D k : ℕ) (hk : k ≤ D) :
    ∀ l : List α, (∀ x ∈ l, (key x).length = D) →
      sortByKey key l = (allPaths k).flatMap
        (fun b => sortByKey key (l.filter (fun x => startsWith b (key x))))
  | [], _ => by
    have hconst : (allPaths k).flatMap
        (fun b => sortByKey key
          (List.filter (fun x => startsWith b (key x)) [])) =
        (allPaths k).flatMap (fun _ => ([] : List α)) :=
      flatMap_congr_of_mem (allPaths k) (fun _ _ => rfl)
    rw [sortByKey, List.insertionSort, hconst, flatMap_const_nil]
  | a :: l, hD => by
    have hDl : ∀ x ∈ l, (key x).length = D :=
      fun x hx => hD x (List.mem_cons_of_mem a hx)
    have hka : (key a).length = D := hD a (List.mem_cons_self a l)
    have hg : ∀ b ∈ allPaths k,
        ∀ x ∈ sortByKey key (l.filter (fun x => startsWith b (key x))),
          startsWith b (key x) = true ∧ (key x).length = D := by
      intro b _ x hx
      rw [sortByKey, List.mem_insertionSort, List.mem_filter] at hx
      exact ⟨hx.2, hDl x hx.1⟩
    rw [sortByKey, List.insertionSort]
    have hrec : List.insertionSort (mOrd key) l = (allPaths k).flatMap
        (fun b => sortByKey key (l.filter (fun x => startsWith b (key x)))) :=
      sortByKey_bucket_decomp key D k hk l hDl
    rw [hrec]
    rw [orderedInsert_flatMap key D k a hka hk (allPaths k) _
      (mem_allPaths_length k) (allPaths_pairwise k)
      (take_mem_allPaths k (key a) (hka ▸ hk)) hg]
    apply flatMap_congr_of_mem
    intro b _
    by_cases hsb : startsWith b (key a)
    · rw [if_pos hsb, List.filter_cons, if_pos hsb, sortByKey, sortByKey,
        List.insertionSort]
    · rw [if_neg hsb, List.filter_cons, if_neg hsb]

/-- C1: modelled from the spec (the method bodies of TilingAlgorithmV1 and
TilingAlgorithmV2 are not under src).  For every per-point Morton key
assignment (covering every input PointBuffer and bounds), every key depth D,
every bucket depth k of the configured parallelism, and every node, the two
variants produce the identical externally observable output: the sequence of
points each node receives -- V1 stable-sorting the whole batch and
partitioning from the root, V2 partitioning into the length-k bucket tasks
first and stable-sorting per task -- is the same, and the per-node sampling
and persistence are deterministic functions of that sequence. -/
theorem tiling_v1_v2_identical_output (key : α → NodePath) (D k : ℕ)
    (points : List α) (node : NodePath)
    (hD : ∀ x ∈ points, (key x).length = D) (hk : k ≤ D) :
    v1NodePoints key points node = v2NodePoints key k points node := by
  rw [v1NodePoints, v2NodePoints]
  rw [filter_sortByKey]
  rw [sortByKey_bucket_decomp key D k hk
    (points.filter (fun x => startsWith node (key x)))
    (fun x hx => hD x (List.mem_of_mem_filter hx))]
  apply flatMap_congr_of_mem
  intro b _
  rw [filter_sortByKey]
  congr 1
  rw [List.filter_filter, List.filter_filter]
  apply List.filter_congr
  intro x _
  rw [Bool.and_comm]

/-- Witness for C1 at a concrete batch of keyed points. -/
theorem tiling_v1_v2_identical_output_witness :
    ((∀ x ∈ ([3, 1, 3, 0, 7, 2] : List (Fin 8)),
        (([x] : NodePath)).length = 1) ∧ 1 ≤ 1) ∧
      v1NodePoints (fun d : Fin 8 => [d]) [3, 1, 3, 0, 7, 2] [] =
        v2NodePoints (fun d : Fin 8 => [d]) 1 [3, 1, 3, 0, 7, 2] [] :=
  ⟨⟨by decide, le_refl 1⟩,
    tiling_v1_v2_identical_output (fun d : Fin 8 => [d]) 1 1
      [3, 1, 3, 0, 7, 2] [] (by decide) (le_refl 1)⟩

lemma expandSources_foldl (fs : FileSys) :
    ∀ (sources : List String) (acc : List String × List String),
      sources.foldl (expandOne fs) acc =
        (acc.1 ++ sources.flatMap (sourceContribution fs),
          acc.2 ++ sources.flatMap (sourceMessages fs)) := by
  intro sources
  induction sources with
  | nil => intro acc; simp
  | cons s sources ih =>
    intro acc
    rw [List.foldl_cons, ih, List.flatMap_cons, List.flatMap_cons]
    rw [expandOne, sourceContribution, sourceMessages]
    by_cases hd : fs.isDir s
    · rw [if_pos hd, if_pos hd, if_pos hd]
      simp
    · rw [if_neg hd, if_neg hd, if_neg hd]
      by_cases hf : fs.isFile s
      · rw [if_pos hf, if_pos hf, if_pos hf]
        simp
      · rw [if_neg hf, if_neg hf, if_neg hf]
        simp

lemma expandSources_eq (fs : FileSys) (sources : List String) :
    expandSources fs sources =
      (sources.flatMap (sourceContribution fs),
        sources.flatMap (sourceMessages fs)) := by
  rw [expandSources, expandSources_foldl]
  simp

lemma sourceContribution_of_missing (fs : FileSys) (s : String)
    (h : fsExists fs s = false) : sourceContribution fs s = [] := by
  rw [fsExists, Bool.or_eq_false_iff] at h
  rw [sourceContribution, if_neg (by simp [h.1]), if_neg (by simp [h.2])]

lemma flatMap_contribution_filter (fs : FileSys) :
    ∀ sources : List String,
      sources.flatMap (sourceContribution fs) =
        (sources.filter (fsExists fs)).flatMap (sourceContribution fs) := by
  intro sources
  induction sources with
  | nil => rfl
  | cons t sources ih =>
    rw [List.flatMap_cons, List.filter_cons]
    by_cases ht : fsExists fs t
    · rw [if_pos ht, List.flatMap_cons, ih]
    · rw [if_neg ht,
        sourceContribution_of_missing fs t (Bool.not_eq_true _ ▸ ht),
        List.nil_append, ih]

/-- C6: for every list of configured sources, each named source that does not
exist is reported individually with a per-source message and contributes
nothing to the final input list, and the run continues with the remaining
sources: the final file list equals the one obtained from the existing
sources alone. -/
theorem missing_source_reported_and_skipped (fs : FileSys)
    (sources : List String) (s : String) (hs : s ∈ sources)
    (hd : fs.isDir s = false) (hf : fs.isFile s = false) :
    cantOpenMsg s ∈ (prepareSources fs sources).2 ∧
      s ∉ (prepareSources fs sources).1 ∧
      (prepareSources fs sources).1 =
        (prepareSources fs (sources.filter (fsExists fs))).1 := by
  have hex : fsExists fs s = false := by
    rw [fsExists, hd, hf]; rfl
  refine ⟨?_, ?_, ?_⟩
  · rw [prepareSources, pruneMissing, expandSources_eq]
    apply List.mem_append_left
    rw [List.mem_flatMap]
    refine ⟨s, hs, ?_⟩
    rw [sourceMessages, if_neg (by simp [hd]), if_neg (by simp [hf])]
    exact List.mem_singleton.mpr rfl
  · rw [prepareSources, pruneMissing]
    intro hmem
    have := (List.mem_filter.mp hmem).2
    rw [hex] at this
    cases this
  · rw [prepareSources, prepareSources, pruneMissing, pruneMissing,
      expandSources_eq, expandSources_eq]
    rw [flatMap_contribution_filter fs sources]

/-- Witness for C6 at a concrete filesystem with one existing and one missing
source. -/
theorem missing_source_reported_and_skipped_witness :
    (("missing.xyz" ∈ ["a.las", "missing.xyz"]) ∧
      ((fun _ : String => false) "missing.xyz" = false) ∧
      ((fun p : String => p == "a.las") "missing.xyz" = false)) ∧
      (cantOpenMsg "missing.xyz" ∈
        (prepareSources ⟨fun _ => false, fun p => p == "a.las", fun _ => []⟩
          ["a.las", "missing.xyz"]).2 ∧
      "missing.xyz" ∉
        (prepareSources ⟨fun _ => false, fun p => p == "a.las", fun _ => []⟩
          ["a.las", "missing.xyz"]).1 ∧
      (prepareSources ⟨fun _ => false, fun p => p == "a.las", fun _ => []⟩
          ["a.las", "missing.xyz"]).1 =
        (prepareSources ⟨fun _ => false, fun p => p == "a.las", fun _ => []⟩
          (["a.las", "missing.xyz"].filter
            (fsExists ⟨fun _ => false, fun p => p == "a.las", fun _ => []⟩))).1) :=
  ⟨⟨by decide, rfl, by decide⟩,
    missing_source_reported_and_skipped
      ⟨fun _ => false, fun p => p == "a.las", fun _ => []⟩
      ["a.las", "missing.xyz"] "missing.xyz" (by decide) rfl (by decide)⟩

/-- C8: when diagonal_fraction is zero the configured absolute spacing is
used unchanged; when diagonal_fraction is nonzero the effective root spacing
equals the length of the cubic root bounding box diagonal divided by
diagonal_fraction: multiplying the effective spacing back by
diagonal_fraction recovers the length of the diagonal (size vector) of the
box produced by makeCubic, for every box and every length function.  The
cubic box is genuinely cubic -- its three extents are all equal -- and its
squared diagonal is three times its squared extent. -/
theorem effective_spacing_from_diagonal (len : Vec3 → ℚ) (aabb : BBox)
    (diagonalFraction : ℤ) (spacing : ℚ) (hdf : diagonalFraction ≠ 0) :
    effectiveSpacing len aabb 0 spacing = spacing ∧
      effectiveSpacing len aabb diagonalFraction spacing *
          ((diagonalFraction : ℤ) : ℚ) = len (aabb.makeCubic.size) ∧
      (aabb.makeCubic.size.x = aabb.makeCubic.size.y ∧
        aabb.makeCubic.size.y = aabb.makeCubic.size.z) ∧
      (aabb.makeCubic.size).normSq = 3 * (aabb.makeCubic.size.x) ^ 2 := by
  refine ⟨by rw [effectiveSpacing, if_neg (by simp)], ?_, ?_, ?_⟩
  · rw [effectiveSpacing, if_pos hdf]
    exact div_mul_cancel₀ _ (Int.cast_ne_zero.mpr hdf)
  · constructor
    · simp only [BBox.makeCubic, BBox.size]
      ring
    · simp only [BBox.makeCubic, BBox.size]
      ring
  · simp only [BBox.makeCubic, BBox.size, Vec3.normSq]
    ring

/-- Witness for C8 at a nondegenerate box (extents 1, 2, 3, so the cubic box
has extent 3) and a concrete length function. -/
theorem effective_spacing_from_diagonal_witness :
    ((4 : ℤ) ≠ 0) ∧
      (effectiveSpacing (fun v => v.x + v.y) (BBox.mk ⟨0, 0, 0⟩ ⟨1, 2, 3⟩) 0 5 =
          5 ∧
        effectiveSpacing (fun v => v.x + v.y) (BBox.mk ⟨0, 0, 0⟩ ⟨1, 2, 3⟩) 4 5 *
            (((4 : ℤ) : ℤ) : ℚ) =
          (fun v : Vec3 => v.x + v.y)
            ((BBox.mk ⟨0, 0, 0⟩ ⟨1, 2, 3⟩).makeCubic.size) ∧
        ((BBox.mk ⟨0, 0, 0⟩ ⟨1, 2, 3⟩).makeCubic.size.x =
            (BBox.mk ⟨0, 0, 0⟩ ⟨1, 2, 3⟩).makeCubic.size.y ∧
          (BBox.mk ⟨0, 0, 0⟩ ⟨1, 2, 3⟩).makeCubic.size.y =
            (BBox.mk ⟨0, 0, 0⟩ ⟨1, 2, 3⟩).makeCubic.size.z) ∧
        ((BBox.mk ⟨0, 0, 0⟩ ⟨1, 2, 3⟩).makeCubic.size).normSq =
          3 * ((BBox.mk ⟨0, 0, 0⟩ ⟨1, 2, 3⟩).makeCubic.size.x) ^ 2) :=
  ⟨by decide,
    effective_spacing_from_diagonal (fun v => v.x + v.y)
      (BBox.mk ⟨0, 0, 0⟩ ⟨1, 2, 3⟩) 4 5 (by decide)⟩

end Schwarzwald
